import Mathlib

/-!
Shallow embedding of the deduplication engine of `src/app.py`
(`normalize_text`, composite-key construction and `detect_duplicates`),
together with a faithful model of the builtin fuzzy metric the code uses,
`difflib.SequenceMatcher(None, a, b).ratio()` (the `RAPIDFUZZ = False`
branch, which is the guaranteed builtin path of the source).

Strings are modelled as `List Char`; scalar cell values as an inductive
`Value` (null/NaN, text, or any other scalar carried by its `str()`
representation); a data-frame row as an association list from column name
to value.  Thresholds and similarity scores are modelled as rationals.
-/

namespace AdTracker

/-- A scalar cell of the data frame: `null` models a missing value
(`NaN`, for which `pd.isna` is true); `str` a textual value; `other`
models any non-null, non-text scalar (number, date), carried by its
textual representation, since `normalize_text` only ever uses `str(x)`
of such a value. -/
inductive Value where
  | null : Value
  | str : List Char → Value
  | other : List Char → Value
deriving DecidableEq

/-- `pd.isna` on a scalar: true exactly on the missing value. -/
def pd_isna : Value → Bool
  | Value.null => true
  | _ => false

/-- `str(x)` on a non-null scalar: the textual representation. -/
def strOfValue : Value → List Char
  | Value.null => []
  | Value.str s => s
  | Value.other r => r

/-- Python `str.lower` restricted to the ASCII range, which is what the
keys of this application contain: maps `A`–`Z` to `a`–`z` and leaves
every other character unchanged (same as Lean's `Char.toLower`). -/
def lowerChar (c : Char) : Char :=
  if 65 ≤ c.toNat ∧ c.toNat ≤ 90 then Char.ofNat (c.toNat + 32) else c

/-- Lowercase an entire string. -/
def lowerStr (s : List Char) : List Char := s.map lowerChar

/-- Remove leading whitespace (Python `str.lstrip`). -/
def stripLeft (s : List Char) : List Char := s.dropWhile Char.isWhitespace

/-- Remove trailing whitespace (Python `str.rstrip`). -/
def stripRight (s : List Char) : List Char := (stripLeft s.reverse).reverse

/-- Python `str.strip`: remove surrounding whitespace. -/
def stripStr (s : List Char) : List Char := stripRight (stripLeft s)

/-- `normalize_text` of `src/app.py` (lines 41–44): null-safe
trim-and-lowercase of the textual representation of a scalar. -/
def normalize_text (x : Value) : List Char :=
  if pd_isna x then [] else lowerStr (stripStr (strOfValue x))

/-- A data-frame row: an association list from column name to scalar. -/
abbrev Record := List (String × Value)

/-- The value of column `k` on row `r`.  A column that is absent is read
as the missing value: in the source (lines 82–84) a missing column is
added filled with `""` and a present column may hold `NaN`; both
normalize to the empty string, which this model reproduces. -/
def getField (r : Record) (k : String) : Value :=
  match r.find? (fun p => p.1 == k) with
  | some p => p.2
  | none => Value.null

/-- Python `"|".join`: concatenate with a pipe separator. -/
def joinPipe : List (List Char) → List Char
  | [] => []
  | [s] => s
  | s :: rest => s ++ '|' :: joinPipe rest

/-- The composite `_key` of row `r` (line 85 of `src/app.py`): the
pipe-joined normalized values of the `subset_keys` columns, in order. -/
def buildKey (subset_keys : List String) (r : Record) : List Char :=
  joinPipe (subset_keys.map (fun k => normalize_text (getField r k)))

/-! Model of `difflib.SequenceMatcher(None, a, b).ratio()` for short
strings (no junk, no autojunk: the keys here are far below the
200-character autojunk threshold). -/

/-- Length of the longest common prefix of two strings. -/
def matchLen : List Char → List Char → Nat
  | a :: as, b :: bs => if a = b then matchLen as bs + 1 else 0
  | _, _ => 0

/-- `SequenceMatcher.find_longest_match` over the whole ranges (no junk):
the triple `(i, j, k)` such that `a.drop i` and `b.drop j` share a common
prefix of length `k`, with `k` maximal, ties broken by smallest `i`, then
smallest `j` (the documented behaviour of difflib). -/
def findLongestMatch (a b : List Char) : Nat × Nat × Nat :=
  (List.range (a.length + 1)).foldl
    (fun best i =>
      (List.range (b.length + 1)).foldl
        (fun best j =>
          if best.2.2 < matchLen (a.drop i) (b.drop j) then
            (i, j, matchLen (a.drop i) (b.drop j))
          else best)
        best)
    (0, 0, 0)

/-- Total size of the matching blocks of `SequenceMatcher`
(`get_matching_blocks`): recursively take the longest match, then the
matches strictly to its left and strictly to its right.  The recursion is
fuelled; every recursive call strictly shrinks the first string, so fuel
`a.length + 1` (used by `similarity` below) is always sufficient. -/
def matchTotalF : Nat → List Char → List Char → Nat
  | 0, _, _ => 0
  | fuel + 1, a, b =>
    match findLongestMatch a b with
    | (i, j, k) =>
      if k = 0 then 0
      else
        matchTotalF fuel (a.take i) (b.take j) + k +
          matchTotalF fuel (a.drop (i + k)) (b.drop (j + k))

/-- `SequenceMatcher(None, a, b).ratio()`: `2 * M / (len a + len b)`
where `M` is the total size of the matching blocks, and `1.0` when both
strings are empty (`mkRat` is exactly this quotient, in lowest terms). -/
def similarity (a b : List Char) : ℚ :=
  if a.length + b.length = 0 then 1
  else mkRat (2 * matchTotalF (a.length + 1) a b) (a.length + b.length)

/-! The classifier `detect_duplicates` (lines 71–115 of `src/app.py`). -/

/-- The composite keys of a batch, positionally aligned. -/
def compositeKeys (df : List Record) (subset_keys : List String) : List (List Char) :=
  df.map (buildKey subset_keys)

/-- `df.duplicated(subset=["_key"], keep=False)` at index `i`: true iff
the key at `i` occurs at least twice in the whole batch. -/
def exactFlag (keys : List (List Char)) (i : Nat) : Bool :=
  decide (2 ≤ keys.count (keys.getD i []))

/-- The fuzzy flag at index `i` after the nested loop over all pairs
`p < q` (lines 107–112): `i` is flagged iff some pair containing `i`
scores at least the threshold, the score being computed on the
`(smaller index, larger index)` orientation exactly as the loop does. -/
def fuzzyFlag (keys : List (List Char)) (t : ℚ) (i : Nat) : Bool :=
  (List.range keys.length).any (fun j =>
    if i < j then decide (t ≤ similarity (keys.getD i []) (keys.getD j []))
    else if j < i then decide (t ≤ similarity (keys.getD j []) (keys.getD i []))
    else false)

/-- The exact phase alone (lines 87–88): the boolean series of exact
composite-key collisions. -/
def exactPhase (df : List Record) (subset_keys : List String) : List Bool :=
  (List.range (compositeKeys df subset_keys).length).map
    (exactFlag (compositeKeys df subset_keys))

/-- `detect_duplicates` of `src/app.py`: empty batch short-circuits to an
empty series; otherwise each index is flagged iff it is an exact
duplicate or a fuzzy duplicate (`combined = exact_dup | fuzzy_dup`). -/
def detect_duplicates (df : List Record) (subset_keys : List String)
    (fuzzy_threshold : ℚ) : List Bool :=
  if df.isEmpty then []
  else
    (List.range (compositeKeys df subset_keys).length).map
      (fun i => exactFlag (compositeKeys df subset_keys) i ||
        fuzzyFlag (compositeKeys df subset_keys) fuzzy_threshold i)

/-! Lemmas about characters. -/

theorem char_eq_of_toNat {c d : Char} (h : c.toNat = d.toNat) : c = d := by
  have h2 := congrArg Char.ofNat h
  rwa [Char.ofNat_toNat, Char.ofNat_toNat] at h2

theorem toNat_ofNat_of_valid {n : Nat} (h : n < 55296) : (Char.ofNat n).toNat = n := by
  have hv : n.isValidChar := Or.inl h
  rw [Char.ofNat, dif_pos hv]
  rfl

theorem not_whitespace_of_range {c : Char} (h65 : 65 ≤ c.toNat) (h122 : c.toNat ≤ 122) :
    c.isWhitespace = false := by
  have hs : c ≠ ' ' := by intro h; subst h; exact absurd h65 (by decide)
  have ht : c ≠ '\t' := by intro h; subst h; exact absurd h65 (by decide)
  have hr : c ≠ '\r' := by intro h; subst h; exact absurd h65 (by decide)
  have hn : c ≠ '\n' := by intro h; subst h; exact absurd h65 (by decide)
  simp [Char.isWhitespace, hs, ht, hr, hn]

theorem lowerChar_toNat_of_upper {c : Char} (h : 65 ≤ c.toNat ∧ c.toNat ≤ 90) :
    (lowerChar c).toNat = c.toNat + 32 := by
  rw [lowerChar, if_pos h]
  exact toNat_ofNat_of_valid (by omega)

theorem lowerChar_isWhitespace (c : Char) : (lowerChar c).isWhitespace = c.isWhitespace := by
  by_cases h : 65 ≤ c.toNat ∧ c.toNat ≤ 90
  · have h1 := lowerChar_toNat_of_upper h
    rw [not_whitespace_of_range (c := lowerChar c) (by omega) (by omega),
      not_whitespace_of_range (c := c) (by omega) (by omega)]
  · rw [lowerChar, if_neg h]

theorem lowerChar_idem (c : Char) : lowerChar (lowerChar c) = lowerChar c := by
  by_cases h : 65 ≤ c.toNat ∧ c.toNat ≤ 90
  · have h1 := lowerChar_toNat_of_upper h
    have h2 : ¬(65 ≤ (lowerChar c).toNat ∧ (lowerChar c).toNat ≤ 90) := by omega
    conv_lhs => rw [lowerChar]
    rw [if_neg h2]
  · have he : lowerChar c = c := by rw [lowerChar, if_neg h]
    rw [he, he]

/-! Lemmas about stripping and lowercasing. -/

theorem dropWhile_idem (p : α → Bool) (l : List α) :
    (l.dropWhile p).dropWhile p = l.dropWhile p := by
  induction l with
  | nil => rfl
  | cons c l ih =>
    cases hpc : p c <;> simp [List.dropWhile_cons, hpc, ih]

theorem exists_append_dropWhile (p : α → Bool) (l : List α) :
    ∃ w, w ++ l.dropWhile p = l := by
  induction l with
  | nil => exact ⟨[], rfl⟩
  | cons c l ih =>
    cases hpc : p c
    · exact ⟨[], by simp [List.dropWhile_cons, hpc]⟩
    · obtain ⟨w, hw⟩ := ih
      exact ⟨c :: w, by simp [List.dropWhile_cons, hpc, hw]⟩

theorem dropWhile_eq_self_of_head {p : α → Bool} :
    ∀ {l : List α}, (∀ c, l.head? = some c → p c = false) → l.dropWhile p = l := by
  intro l h
  cases l with
  | nil => rfl
  | cons c l => simp [List.dropWhile_cons, h c rfl]

theorem head_false_of_dropWhile_eq_self {p : α → Bool} {l : List α}
    (h : l.dropWhile p = l) : ∀ c, l.head? = some c → p c = false := by
  intro c hc
  cases l with
  | nil => simp at hc
  | cons a l =>
    have hpa : p a = false := by
      cases hpc : p a
      · rfl
      · rw [List.dropWhile_cons, if_pos hpc] at h
        have h1 := (List.dropWhile_sublist (l := l) p).length_le
        have h2 := congrArg List.length h
        simp at h2
        omega
    have hac : a = c := by simpa using hc
    rw [← hac]
    exact hpa

theorem exists_stripRight_append (t : List Char) : ∃ v, stripRight t ++ v = t := by
  obtain ⟨w, hw⟩ := exists_append_dropWhile Char.isWhitespace t.reverse
  refine ⟨w.reverse, ?_⟩
  have h2 := congrArg List.reverse hw
  simpa [stripRight, stripLeft, List.reverse_append] using h2

theorem stripLeft_stripRight {t : List Char} (ht : stripLeft t = t) :
    stripLeft (stripRight t) = stripRight t := by
  apply dropWhile_eq_self_of_head
  intro c hc
  obtain ⟨v, hv⟩ := exists_stripRight_append t
  have hht : t.head? = some c := by
    cases hsr : stripRight t with
    | nil => rw [hsr] at hc; simp at hc
    | cons a u =>
      rw [hsr] at hc hv
      obtain rfl : a = c := by simpa using hc
      rw [← hv]
      rfl
  exact head_false_of_dropWhile_eq_self ht c hht

theorem stripRight_idem (t : List Char) : stripRight (stripRight t) = stripRight t := by
  show stripRight ((stripLeft t.reverse).reverse) = stripRight t
  rw [stripRight, List.reverse_reverse, stripLeft, stripLeft, dropWhile_idem]
  rfl

theorem stripStr_idem (s : List Char) : stripStr (stripStr s) = stripStr s := by
  rw [stripStr, stripStr,
    stripLeft_stripRight (t := stripLeft s) (dropWhile_idem _ _), stripRight_idem]

theorem stripLeft_lowerStr (s : List Char) :
    stripLeft (lowerStr s) = lowerStr (stripLeft s) := by
  rw [stripLeft, lowerStr, List.dropWhile_map]
  have hp : (Char.isWhitespace ∘ lowerChar) = Char.isWhitespace :=
    funext lowerChar_isWhitespace
  rw [hp]
  rfl

theorem stripRight_lowerStr (s : List Char) :
    stripRight (lowerStr s) = lowerStr (stripRight s) := by
  rw [stripRight, stripRight, show (lowerStr s).reverse = lowerStr s.reverse by
      rw [lowerStr, lowerStr, List.map_reverse],
    stripLeft_lowerStr, lowerStr, lowerStr, List.map_reverse]

theorem stripStr_lowerStr (s : List Char) :
    stripStr (lowerStr s) = lowerStr (stripStr s) := by
  rw [stripStr, stripStr, stripLeft_lowerStr, stripRight_lowerStr]

theorem lowerStr_idem (s : List Char) : lowerStr (lowerStr s) = lowerStr s := by
  rw [lowerStr, lowerStr, List.map_map]
  exact List.map_congr_left (fun c _ => lowerChar_idem c)

/-! Lemmas about the pipe join. -/

theorem append_pipe_inj : ∀ {x y u v : List Char}, '|' ∉ x → '|' ∉ y →
    x ++ '|' :: u = y ++ '|' :: v → x = y ∧ u = v := by
  intro x
  induction x with
  | nil =>
    intro y u v hx hy h
    cases y with
    | nil => simpa using h
    | cons d y =>
      simp only [List.nil_append, List.cons_append, List.cons.injEq] at h
      exact absurd (h.1 ▸ List.mem_cons_self d y) hy
  | cons c x ih =>
    intro y u v hx hy h
    cases y with
    | nil =>
      simp only [List.cons_append, List.nil_append, List.cons.injEq] at h
      exact absurd (h.1 ▸ List.mem_cons_self c x) (h.1 ▸ hx)
    | cons d y =>
      simp only [List.cons_append, List.cons.injEq] at h
      obtain ⟨hcd, htl⟩ := h
      have hx2 : '|' ∉ x := fun hm => hx (List.mem_cons_of_mem c hm)
      have hy2 : '|' ∉ y := fun hm => hy (List.mem_cons_of_mem d hm)
      obtain ⟨he, hu⟩ := ih hx2 hy2 htl
      exact ⟨by rw [hcd, he], hu⟩

theorem joinPipe_inj : ∀ (xs ys : List (List Char)), xs.length = ys.length →
    (∀ s ∈ xs, '|' ∉ s) → (∀ s ∈ ys, '|' ∉ s) →
    (joinPipe xs = joinPipe ys ↔ xs = ys) := by
  intro xs
  induction xs with
  | nil =>
    intro ys hlen _ _
    have : ys = [] := List.length_eq_zero.mp hlen.symm
    subst this
    simp
  | cons x xs ih =>
    intro ys hlen hx hy
    cases ys with
    | nil => simp at hlen
    | cons y ys =>
      cases xs with
      | nil =>
        cases ys with
        | nil => simp [joinPipe]
        | cons y2 ys => simp at hlen
      | cons x2 xs =>
        cases ys with
        | nil => simp at hlen
        | cons y2 ys =>
          have hx1 : '|' ∉ x := hx x (List.mem_cons_self x _)
          have hy1 : '|' ∉ y := hy y (List.mem_cons_self y _)
          have hj1 : joinPipe (x :: x2 :: xs) = x ++ '|' :: joinPipe (x2 :: xs) := rfl
          have hj2 : joinPipe (y :: y2 :: ys) = y ++ '|' :: joinPipe (y2 :: ys) := rfl
          rw [hj1, hj2]
          constructor
          · intro h
            obtain ⟨he, hu⟩ := append_pipe_inj hx1 hy1 h
            have htl : x2 :: xs = y2 :: ys := by
              refine (ih (y2 :: ys) (by simpa using hlen) ?_ ?_).mp hu
              · exact fun s hs => hx s (List.mem_cons_of_mem x hs)
              · exact fun s hs => hy s (List.mem_cons_of_mem y hs)
            rw [he, htl]
          · intro h
            obtain ⟨he, htl⟩ := by exact List.cons.inj h
            rw [he, htl]

/-! Lemmas about the similarity-score model. -/

theorem matchLen_le_left : ∀ (u v : List Char), matchLen u v ≤ u.length := by
  intro u
  induction u with
  | nil => intro v; cases v <;> simp [matchLen]
  | cons c u ih =>
    intro v
    cases v with
    | nil => simp [matchLen]
    | cons d v =>
      rw [matchLen]
      by_cases h : c = d
      · rw [if_pos h]
        simpa using ih v
      · rw [if_neg h]
        simp

theorem matchLen_le_right : ∀ (u v : List Char), matchLen u v ≤ v.length := by
  intro u
  induction u with
  | nil => intro v; cases v <;> simp [matchLen]
  | cons c u ih =>
    intro v
    cases v with
    | nil => simp [matchLen]
    | cons d v =>
      rw [matchLen]
      by_cases h : c = d
      · rw [if_pos h]
        simpa using ih v
      · rw [if_neg h]
        simp

theorem take_matchLen_eq : ∀ (u v : List Char), u.take (matchLen u v) = v.take (matchLen u v) := by
  intro u
  induction u with
  | nil => intro v; cases v <;> simp [matchLen]
  | cons c u ih =>
    intro v
    cases v with
    | nil => simp [matchLen]
    | cons d v =>
      rw [matchLen]
      by_cases h : c = d
      · rw [if_pos h]
        simp only [List.take_succ_cons, h, List.cons.injEq]
        simpa using ih v
      · rw [if_neg h]
        simp

theorem flm_fold_inner (a b : List Char) (i : Nat) (hi : i ≤ a.length) :
    ∀ (js : List Nat) (acc : Nat × Nat × Nat),
      (acc = (0, 0, 0) ∨ (acc.1 ≤ a.length ∧ acc.2.1 ≤ b.length ∧
        matchLen (a.drop acc.1) (b.drop acc.2.1) = acc.2.2)) →
      (∀ j ∈ js, j ≤ b.length) →
      (js.foldl
          (fun best j =>
            if best.2.2 < matchLen (a.drop i) (b.drop j) then
              (i, j, matchLen (a.drop i) (b.drop j))
            else best) acc = (0, 0, 0) ∨
        ((js.foldl
            (fun best j =>
              if best.2.2 < matchLen (a.drop i) (b.drop j) then
                (i, j, matchLen (a.drop i) (b.drop j))
              else best) acc).1 ≤ a.length ∧
          (js.foldl
            (fun best j =>
              if best.2.2 < matchLen (a.drop i) (b.drop j) then
                (i, j, matchLen (a.drop i) (b.drop j))
              else best) acc).2.1 ≤ b.length ∧
          matchLen (a.drop (js.foldl
            (fun best j =>
              if best.2.2 < matchLen (a.drop i) (b.drop j) then
                (i, j, matchLen (a.drop i) (b.drop j))
              else best) acc).1)
            (b.drop (js.foldl
              (fun best j =>
                if best.2.2 < matchLen (a.drop i) (b.drop j) then
                  (i, j, matchLen (a.drop i) (b.drop j))
                else best) acc).2.1) =
            (js.foldl
              (fun best j =>
                if best.2.2 < matchLen (a.drop i) (b.drop j) then
                  (i, j, matchLen (a.drop i) (b.drop j))
                else best) acc).2.2)) := by
  intro js
  induction js with
  | nil => intro acc hacc _; simpa using hacc
  | cons j js ih =>
    intro acc hacc hjs
    rw [List.foldl_cons]
    apply ih
    · by_cases hlt : acc.2.2 < matchLen (a.drop i) (b.drop j)
      · rw [if_pos hlt]
        exact Or.inr ⟨hi, hjs j (List.mem_cons_self j js), rfl⟩
      · rw [if_neg hlt]
        exact hacc
    · exact fun j2 h2 => hjs j2 (List.mem_cons_of_mem j h2)

theorem findLongestMatch_spec (a b : List Char) :
    findLongestMatch a b = (0, 0, 0) ∨
      ((findLongestMatch a b).1 ≤ a.length ∧ (findLongestMatch a b).2.1 ≤ b.length ∧
        matchLen (a.drop (findLongestMatch a b).1) (b.drop (findLongestMatch a b).2.1) =
          (findLongestMatch a b).2.2) := by
  rw [findLongestMatch]
  have main : ∀ (is : List Nat) (acc : Nat × Nat × Nat),
      (acc = (0, 0, 0) ∨ (acc.1 ≤ a.length ∧ acc.2.1 ≤ b.length ∧
        matchLen (a.drop acc.1) (b.drop acc.2.1) = acc.2.2)) →
      (∀ i ∈ is, i ≤ a.length) →
      (is.foldl
          (fun best i =>
            (List.range (b.length + 1)).foldl
              (fun best j =>
                if best.2.2 < matchLen (a.drop i) (b.drop j) then
                  (i, j, matchLen (a.drop i) (b.drop j))
                else best) best) acc = (0, 0, 0) ∨
        ((is.foldl
            (fun best i =>
              (List.range (b.length + 1)).foldl
                (fun best j =>
                  if best.2.2 < matchLen (a.drop i) (b.drop j) then
                    (i, j, matchLen (a.drop i) (b.drop j))
                  else best) best) acc).1 ≤ a.length ∧
          (is.foldl
            (fun best i =>
              (List.range (b.length + 1)).foldl
                (fun best j =>
                  if best.2.2 < matchLen (a.drop i) (b.drop j) then
                    (i, j, matchLen (a.drop i) (b.drop j))
                  else best) best) acc).2.1 ≤ b.length ∧
          matchLen
            (a.drop (is.foldl
              (fun best i =>
                (List.range (b.length + 1)).foldl
                  (fun best j =>
                    if best.2.2 < matchLen (a.drop i) (b.drop j) then
                      (i, j, matchLen (a.drop i) (b.drop j))
                    else best) best) acc).1)
            (b.drop (is.foldl
              (fun best i =>
                (List.range (b.length + 1)).foldl
                  (fun best j =>
                    if best.2.2 < matchLen (a.drop i) (b.drop j) then
                      (i, j, matchLen (a.drop i) (b.drop j))
                    else best) best) acc).2.1) =
            (is.foldl
              (fun best i =>
                (List.range (b.length + 1)).foldl
                  (fun best j =>
                    if best.2.2 < matchLen (a.drop i) (b.drop j) then
                      (i, j, matchLen (a.drop i) (b.drop j))
                    else best) best) acc).2.2)) := by
    intro is
    induction is with
    | nil => intro acc hacc _; simpa using hacc
    | cons i is ih =>
      intro acc hacc his
      rw [List.foldl_cons]
      apply ih
      · exact flm_fold_inner a b i (his i (List.mem_cons_self i is)) _ acc hacc
          (fun j hj => Nat.le_of_lt_succ (List.mem_range.mp hj))
      · exact fun i2 h2 => his i2 (List.mem_cons_of_mem i h2)
  exact main _ _ (Or.inl rfl) (fun i hi => Nat.le_of_lt_succ (List.mem_range.mp hi))

theorem matchTotalF_le (fuel : Nat) : ∀ (a b : List Char),
    matchTotalF fuel a b ≤ a.length ∧ matchTotalF fuel a b ≤ b.length := by
  induction fuel with
  | zero => intro a b; simp [matchTotalF]
  | succ fuel ih =>
    intro a b
    rw [matchTotalF]
    rcases hflm : findLongestMatch a b with ⟨i, j, k⟩
    dsimp only
    by_cases hk : k = 0
    · rw [if_pos hk]
      simp
    · rw [if_neg hk]
      rcases findLongestMatch_spec a b with h0 | hspec
      · rw [hflm] at h0
        simp only [Prod.mk.injEq] at h0
        exact absurd h0.2.2 hk
      · rw [hflm] at hspec
        obtain ⟨hia, hjb, hml⟩ := hspec
        dsimp only at hia hjb hml
        have hk1 : k ≤ a.length - i := by
          rw [← hml]
          simpa using matchLen_le_left (a.drop i) (b.drop j)
        have hk2 : k ≤ b.length - j := by
          rw [← hml]
          simpa using matchLen_le_right (a.drop i) (b.drop j)
        obtain ⟨hL1, hL2⟩ := ih (a.take i) (b.take j)
        obtain ⟨hR1, hR2⟩ := ih (a.drop (i + k)) (b.drop (j + k))
        simp only [List.length_take, List.length_drop] at hL1 hL2 hR1 hR2
        rw [min_eq_left hia] at hL1
        rw [min_eq_left hjb] at hL2
        constructor <;> omega

theorem matchTotalF_full (fuel : Nat) : ∀ (a b : List Char),
    a.length + b.length ≤ 2 * matchTotalF fuel a b → a = b := by
  induction fuel with
  | zero =>
    intro a b h
    simp only [matchTotalF, Nat.mul_zero, Nat.le_zero] at h
    have ha : a = [] := List.length_eq_zero.mp (by omega)
    have hb : b = [] := List.length_eq_zero.mp (by omega)
    rw [ha, hb]
  | succ fuel ih =>
    intro a b h
    rw [matchTotalF] at h
    rcases hflm : findLongestMatch a b with ⟨i, j, k⟩
    rw [hflm] at h
    dsimp only at h
    by_cases hk : k = 0
    · rw [if_pos hk] at h
      simp only [Nat.mul_zero, Nat.le_zero] at h
      have ha : a = [] := List.length_eq_zero.mp (by omega)
      have hb : b = [] := List.length_eq_zero.mp (by omega)
      rw [ha, hb]
    · rw [if_neg hk] at h
      rcases findLongestMatch_spec a b with h0 | hspec
      · rw [hflm] at h0
        simp only [Prod.mk.injEq] at h0
        exact absurd h0.2.2 hk
      · rw [hflm] at hspec
        obtain ⟨hia, hjb, hml⟩ := hspec
        dsimp only at hia hjb hml
        have hk1 : k ≤ a.length - i := by
          rw [← hml]
          simpa using matchLen_le_left (a.drop i) (b.drop j)
        have hk2 : k ≤ b.length - j := by
          rw [← hml]
          simpa using matchLen_le_right (a.drop i) (b.drop j)
        obtain ⟨hL1, hL2⟩ := matchTotalF_le fuel (a.take i) (b.take j)
        obtain ⟨hR1, hR2⟩ := matchTotalF_le fuel (a.drop (i + k)) (b.drop (j + k))
        simp only [List.length_take, List.length_drop] at hL1 hL2 hR1 hR2
        rw [min_eq_left hia] at hL1
        rw [min_eq_left hjb] at hL2
        have e1 : a.take i = b.take j := by
          apply ih
          rw [List.length_take, List.length_take, min_eq_left hia, min_eq_left hjb]
          omega
        have e2 : a.drop (i + k) = b.drop (j + k) := by
          apply ih
          rw [List.length_drop, List.length_drop]
          omega
        have e3 : (a.drop i).take k = (b.drop j).take k := by
          rw [← hml]
          exact take_matchLen_eq (a.drop i) (b.drop j)
        have hspla : a = a.take i ++ ((a.drop i).take k ++ a.drop (i + k)) := by
          have hdd : a.drop (i + k) = (a.drop i).drop k := by
            rw [List.drop_drop, Nat.add_comm]
          rw [hdd, List.take_append_drop, List.take_append_drop]
        have hsplb : b = b.take j ++ ((b.drop j).take k ++ b.drop (j + k)) := by
          have hdd : b.drop (j + k) = (b.drop j).drop k := by
            rw [List.drop_drop, Nat.add_comm]
          rw [hdd, List.take_append_drop, List.take_append_drop]
        rw [hspla, hsplb, e1, e2, e3]

/-- A similarity score of at least `1` forces the two strings to be
identical: the matching-block total is bounded by each string's length. -/
theorem similarity_ge_one {a b : List Char} (h : 1 ≤ similarity a b) : a = b := by
  rw [similarity] at h
  by_cases h0 : a.length + b.length = 0
  · have ha : a = [] := List.length_eq_zero.mp (by omega)
    have hb : b = [] := List.length_eq_zero.mp (by omega)
    rw [ha, hb]
  · rw [if_neg h0] at h
    have hpos : (0 : ℚ) < ((a.length + b.length : Nat) : ℚ) := by
      exact_mod_cast Nat.pos_of_ne_zero h0
    rw [Rat.mkRat_eq_div, le_div_iff₀ hpos, one_mul] at h
    have hnat : a.length + b.length ≤ 2 * matchTotalF (a.length + 1) a b := by
      exact_mod_cast h
    exact matchTotalF_full _ _ _ hnat

/-! Lemmas about the classifier. -/

theorem getD_of_lt (l : List α) (i : Nat) (d : α) (h : i < l.length) :
    l.getD i d = l[i] := by
  simp [List.getElem?_eq_getElem h]

theorem two_le_count_aux : ∀ (l : List (List Char)) (i j : Nat) (hi : i < l.length)
    (hj : j < l.length), i < j → l[i] = l[j] → 2 ≤ l.count l[i] := by
  intro l
  induction l with
  | nil => intro i j hi _ _ _; simp at hi
  | cons x l ih =>
    intro i j hi hj hij he
    cases i with
    | zero =>
      cases j with
      | zero => omega
      | succ j2 =>
        have hj2 : j2 < l.length := by simpa using hj
        have hxy : (x :: l)[j2 + 1] = l[j2] := by simp
        rw [hxy] at he
        have hmem : x ∈ l := by
          have h2 : (x :: l)[0] = x := rfl
          rw [h2] at he
          exact he ▸ List.getElem_mem hj2
        have hpos : 1 ≤ l.count x := List.one_le_count_iff.mpr hmem
        have h0 : (x :: l)[0] = x := rfl
        rw [h0, List.count_cons_self]
        omega
    | succ i2 =>
      cases j with
      | zero => omega
      | succ j2 =>
        have hi2 : i2 < l.length := by simpa using hi
        have hj2 : j2 < l.length := by simpa using hj
        have he2 : l[i2] = l[j2] := by simpa using he
        have h2 := ih i2 j2 hi2 hj2 (by omega) he2
        have hx : (x :: l)[i2 + 1] = l[i2] := by simp
        rw [hx]
        rw [List.count_cons]
        omega

theorem compositeKeys_length (df : List Record) (sk : List String) :
    (compositeKeys df sk).length = df.length := List.length_map df _

theorem compositeKeys_getD (df : List Record) (sk : List String) (i : Nat)
    (hi : i < df.length) :
    (compositeKeys df sk).getD i [] = buildKey sk df[i] := by
  rw [getD_of_lt _ _ _ (by rw [compositeKeys_length]; exact hi)]
  simp [compositeKeys]

theorem detect_duplicates_length (df : List Record) (sk : List String) (t : ℚ) :
    (detect_duplicates df sk t).length = df.length := by
  cases df with
  | nil => rfl
  | cons r df => simp [detect_duplicates, compositeKeys]

theorem detect_getD (df : List Record) (sk : List String) (t : ℚ) (i : Nat)
    (hi : i < df.length) :
    (detect_duplicates df sk t).getD i false =
      (exactFlag (compositeKeys df sk) i || fuzzyFlag (compositeKeys df sk) t i) := by
  have hne : df ≠ [] := by intro h; rw [h] at hi; simp at hi
  rw [detect_duplicates, if_neg (by simpa using hne)]
  rw [getD_of_lt _ _ _ (by simpa [compositeKeys] using hi)]
  rw [List.getElem_map, List.getElem_range]

theorem fuzzyFlag_mono {keys : List (List Char)} {t1 t2 : ℚ} (h12 : t1 ≤ t2) {i : Nat}
    (h : fuzzyFlag keys t2 i = true) : fuzzyFlag keys t1 i = true := by
  rw [fuzzyFlag, List.any_eq_true] at h ⊢
  obtain ⟨j, hj, hcond⟩ := h
  refine ⟨j, hj, ?_⟩
  by_cases hij : i < j
  · rw [if_pos hij] at hcond ⊢
    exact decide_eq_true (le_trans h12 (of_decide_eq_true hcond))
  · rw [if_neg hij] at hcond ⊢
    by_cases hji : j < i
    · rw [if_pos hji] at hcond ⊢
      exact decide_eq_true (le_trans h12 (of_decide_eq_true hcond))
    · rw [if_neg hji] at hcond
      exact absurd hcond (by simp)

theorem fuzzyFlag_of_pair {keys : List (List Char)} {t : ℚ} {i j : Nat}
    (hij : i < j) (hj : j < keys.length)
    (hs : t ≤ similarity (keys.getD i []) (keys.getD j [])) :
    fuzzyFlag keys t i = true ∧ fuzzyFlag keys t j = true := by
  constructor
  · rw [fuzzyFlag, List.any_eq_true]
    exact ⟨j, List.mem_range.mpr hj, by rw [if_pos hij]; exact decide_eq_true hs⟩
  · rw [fuzzyFlag, List.any_eq_true]
    refine ⟨i, List.mem_range.mpr (lt_trans hij hj), ?_⟩
    rw [if_neg (by omega), if_pos hij]
    exact decide_eq_true hs

theorem exactFlag_of_pair {keys : List (List Char)} {i j : Nat}
    (hi : i < keys.length) (hj : j < keys.length) (hij : i ≠ j)
    (he : keys.getD i [] = keys.getD j []) :
    exactFlag keys i = true ∧ exactFlag keys j = true := by
  rw [getD_of_lt _ _ _ hi, getD_of_lt _ _ _ hj] at he
  rcases Nat.lt_or_ge i j with h | h
  · have hc := two_le_count_aux keys i j hi hj h he
    constructor
    · rw [exactFlag, getD_of_lt _ _ _ hi]
      exact decide_eq_true hc
    · rw [exactFlag, getD_of_lt _ _ _ hj, ← he]
      exact decide_eq_true hc
  · have hlt : j < i := by omega
    have hc := two_le_count_aux keys j i hj hi hlt he.symm
    constructor
    · rw [exactFlag, getD_of_lt _ _ _ hi, he]
      exact decide_eq_true hc
    · rw [exactFlag, getD_of_lt _ _ _ hj]
      exact decide_eq_true hc

/-! Claim theorems. -/

/-- C1 (counterexample): `detect_duplicates` does not report an error for
an empty field set nor for a threshold outside `[0, 1]`: on a two-record
batch with an empty field set it returns the full verdict `[true, true]`
(every composite key is the empty string, so all records are exact
duplicates of each other), and with threshold `3/2` it returns
`[false, false]` — successful results where the claim demands errors. -/
theorem C1_counterexample :
    detect_duplicates [[(("advertiser" : String), Value.str ['x'])],
        [(("advertiser" : String), Value.str ['y'])]] [] (mkRat 9 10) = [true, true] ∧
      detect_duplicates [[(("advertiser" : String), Value.str ['x'])],
        [(("advertiser" : String), Value.str ['z', 'z'])]]
        [("advertiser" : String)] (mkRat 3 2) = [false, false] := by
  constructor <;> decide

/-- C1 (amended): the classify operation never reports an error: for
every batch, every field set (empty included) and every threshold (inside
or outside `[0, 1]`), `detect_duplicates` returns a boolean sequence
positionally aligned with the input; in particular no data content and no
caller input can make the call fail. -/
theorem C1_classify_never_fails (df : List Record) (subset_keys : List String)
    (t : ℚ) : (detect_duplicates df subset_keys t).length = df.length :=
  detect_duplicates_length df subset_keys t

/-- C2 (counterexample): the key builder is not injective with respect to
the ordered sequence of normalized field values: when a normalized value
contains the pipe separator, two records with different normalized field
sequences produce the same composite key (`a|b` + `c` collides with
`a` + `b|c`). -/
theorem C2_counterexample :
    buildKey ["f", "g"]
        [(("f" : String), Value.str ['a', '|', 'b']), (("g" : String), Value.str ['c'])] =
      buildKey ["f", "g"]
        [(("f" : String), Value.str ['a']), (("g" : String), Value.str ['b', '|', 'c'])] ∧
      ¬ (["f", "g"].map (fun k => normalize_text (getField
            [(("f" : String), Value.str ['a', '|', 'b']), (("g" : String), Value.str ['c'])] k)) =
          ["f", "g"].map (fun k => normalize_text (getField
            [(("f" : String), Value.str ['a']), (("g" : String), Value.str ['b', '|', 'c'])] k))) := by
  constructor <;> decide

/-- C2 (amended): the key builder is deterministic, and injective with
respect to the ordered sequence of normalized field values provided no
normalized field value of either record contains the pipe separator:
under that proviso, for every non-empty ordered field set two records
yield the same composite key iff their normalized field-value sequences
are identical. -/
theorem C2_buildKey_injective (sk : List String) (r1 r2 : Record) (hne : sk ≠ [])
    (h1 : ∀ k ∈ sk, '|' ∉ normalize_text (getField r1 k))
    (h2 : ∀ k ∈ sk, '|' ∉ normalize_text (getField r2 k)) :
    (buildKey sk r1 = buildKey sk r2 ↔
      sk.map (fun k => normalize_text (getField r1 k)) =
        sk.map (fun k => normalize_text (getField r2 k))) := by
  rw [buildKey, buildKey]
  apply joinPipe_inj
  · rw [List.length_map, List.length_map]
  · intro s hs
    obtain ⟨k, hk, rfl⟩ := List.mem_map.mp hs
    exact h1 k hk
  · intro s hs
    obtain ⟨k, hk, rfl⟩ := List.mem_map.mp hs
    exact h2 k hk

/-- Witness for C2's amended theorem at a concrete pipe-free input. -/
theorem C2_witness :
    (buildKey ["f"] [(("f" : String), Value.str ['a'])] =
        buildKey ["f"] [(("f" : String), Value.str ['b'])] ↔
      ["f"].map (fun k => normalize_text (getField [(("f" : String), Value.str ['a'])] k)) =
        ["f"].map (fun k => normalize_text (getField [(("f" : String), Value.str ['b'])] k))) :=
  C2_buildKey_injective ["f"] _ _ (by decide) (by decide) (by decide)

/-- C3: monotonicity in the threshold: for a fixed batch and field set
and valid thresholds `t1 ≤ t2`, every record flagged at `t2` is flagged
at `t1`, so lowering the threshold never removes a flag. -/
theorem C3_threshold_monotone (df : List Record) (sk : List String) (t1 t2 : ℚ)
    (h0 : 0 ≤ t1) (h12 : t1 ≤ t2) (h1 : t2 ≤ 1) (i : Nat)
    (hflag : (detect_duplicates df sk t2).getD i false = true) :
    (detect_duplicates df sk t1).getD i false = true := by
  by_cases hi : i < df.length
  · rw [detect_getD df sk t2 i hi] at hflag
    rw [detect_getD df sk t1 i hi]
    simp only [Bool.or_eq_true] at hflag ⊢
    rcases hflag with he | hf
    · exact Or.inl he
    · exact Or.inr (fuzzyFlag_mono h12 hf)
  · rw [List.getD_eq_default] at hflag
    · exact absurd hflag (by simp)
    · rw [detect_duplicates_length]
      omega

/-- Witness for C3 at a concrete input: a pair of identical records,
flagged at threshold `3/4`, stays flagged at threshold `1/2`. -/
theorem C3_witness :
    (detect_duplicates [[(("advertiser" : String), Value.str ['a'])],
        [(("advertiser" : String), Value.str ['a'])]]
      [("advertiser" : String)] (mkRat 1 2)).getD 0 false = true :=
  C3_threshold_monotone _ _ (mkRat 1 2) (mkRat 3 4) (by decide) (by decide) (by decide) 0
    (by decide)

/-- C4: symmetry of verdicts: for every pair of distinct indices
`i < j`, if the similarity score of their composite keys (computed on
the pair ordering the loop uses) reaches the threshold, or the two
composite keys are identical, then both `i` and `j` are flagged true. -/
theorem C4_symmetric_flags (df : List Record) (sk : List String) (t : ℚ) (i j : Nat)
    (hij : i < j) (hj : j < df.length)
    (h : t ≤ similarity ((compositeKeys df sk).getD i []) ((compositeKeys df sk).getD j [])
      ∨ (compositeKeys df sk).getD i [] = (compositeKeys df sk).getD j []) :
    (detect_duplicates df sk t).getD i false = true ∧
      (detect_duplicates df sk t).getD j false = true := by
  have hi : i < df.length := lt_trans hij hj
  have hkj : j < (compositeKeys df sk).length := by rw [compositeKeys_length]; exact hj
  have hki : i < (compositeKeys df sk).length := by rw [compositeKeys_length]; exact hi
  rw [detect_getD df sk t i hi, detect_getD df sk t j hj]
  rcases h with hs | he
  · obtain ⟨f1, f2⟩ := fuzzyFlag_of_pair hij hkj hs
    rw [f1, f2]
    constructor <;> simp
  · obtain ⟨e1, e2⟩ := exactFlag_of_pair hki hkj (by omega) he
    rw [e1, e2]
    constructor <;> simp

/-- Witness for C4 at a concrete input with identical composite keys. -/
theorem C4_witness :
    (detect_duplicates [[(("advertiser" : String), Value.str ['a'])],
        [(("advertiser" : String), Value.str ['a'])]]
      [("advertiser" : String)] (mkRat 9 10)).getD 0 false = true ∧
      (detect_duplicates [[(("advertiser" : String), Value.str ['a'])],
        [(("advertiser" : String), Value.str ['a'])]]
        [("advertiser" : String)] (mkRat 9 10)).getD 1 false = true :=
  C4_symmetric_flags _ _ (mkRat 9 10) 0 1 (by decide) (by decide) (Or.inr (by decide))

/-- C5: degenerate threshold: with `fuzzyThreshold = 1` the classifier
returns exactly the output of the exact phase alone — a similarity score
of `1` occurs only for identical keys, which the exact phase already
flags, so the fuzzy phase adds nothing. -/
theorem C5_threshold_one_is_exact (df : List Record) (sk : List String) :
    detect_duplicates df sk 1 = exactPhase df sk := by
  cases df with
  | nil => rfl
  | cons r df2 =>
    rw [detect_duplicates, exactPhase, if_neg (by simp)]
    apply List.map_congr_left
    intro i hi
    have hik : i < (compositeKeys (r :: df2) sk).length := List.mem_range.mp hi
    show (exactFlag (compositeKeys (r :: df2) sk) i ||
        fuzzyFlag (compositeKeys (r :: df2) sk) 1 i) =
      exactFlag (compositeKeys (r :: df2) sk) i
    cases hfz : fuzzyFlag (compositeKeys (r :: df2) sk) 1 i with
    | false => rw [Bool.or_false]
    | true =>
      rw [fuzzyFlag, List.any_eq_true] at hfz
      obtain ⟨j, hjmem, hcond⟩ := hfz
      have hjk : j < (compositeKeys (r :: df2) sk).length := List.mem_range.mp hjmem
      by_cases hij : i < j
      · rw [if_pos hij] at hcond
        have hek := similarity_ge_one (of_decide_eq_true hcond)
        obtain ⟨e1, _⟩ := exactFlag_of_pair hik hjk (by omega) hek
        rw [e1]
        rfl
      · rw [if_neg hij] at hcond
        by_cases hji : j < i
        · rw [if_pos hji] at hcond
          have hek := similarity_ge_one (of_decide_eq_true hcond)
          obtain ⟨_, e2⟩ := exactFlag_of_pair hjk hik (by omega) hek
          rw [e2]
          rfl
        · rw [if_neg hji] at hcond
          exact absurd hcond (by simp)

/-- C6: exact subsumes fuzzy for identical keys: for every batch and
every threshold whatsoever, two distinct records with identical composite
keys are both flagged true. -/
theorem C6_identical_keys_flagged (df : List Record) (sk : List String) (t : ℚ)
    (i j : Nat) (hi : i < df.length) (hj : j < df.length) (hij : i ≠ j)
    (hkey : buildKey sk df[i] = buildKey sk df[j]) :
    (detect_duplicates df sk t).getD i false = true ∧
      (detect_duplicates df sk t).getD j false = true := by
  have hgd : (compositeKeys df sk).getD i [] = (compositeKeys df sk).getD j [] := by
    rw [compositeKeys_getD df sk i hi, compositeKeys_getD df sk j hj]
    exact hkey
  obtain ⟨e1, e2⟩ := exactFlag_of_pair (by rw [compositeKeys_length]; exact hi)
    (by rw [compositeKeys_length]; exact hj) hij hgd
  rw [detect_getD df sk t i hi, detect_getD df sk t j hj, e1, e2]
  constructor <;> simp

/-- Witness for C6 at a concrete input: `"A "` and `"a"` normalize to the
same key; both records are flagged even at the out-of-range threshold
`7/2`. -/
theorem C6_witness :
    (detect_duplicates [[(("advertiser" : String), Value.str ['A', ' '])],
        [(("advertiser" : String), Value.str ['a'])]]
      [("advertiser" : String)] (mkRat 7 2)).getD 0 false = true ∧
      (detect_duplicates [[(("advertiser" : String), Value.str ['A', ' '])],
        [(("advertiser" : String), Value.str ['a'])]]
        [("advertiser" : String)] (mkRat 7 2)).getD 1 false = true :=
  C6_identical_keys_flagged _ _ (mkRat 7 2) 0 1 (by decide) (by decide) (by decide)
    (by decide)

/-- C7: the normalizer is total and idempotent: it is a total function
mapping the missing value to the empty string, and re-normalizing its own
output (as a textual value) returns that output unchanged. -/
theorem C7_normalize_total_idempotent :
    (∀ v : Value, normalize_text (Value.str (normalize_text v)) = normalize_text v) ∧
      normalize_text Value.null = [] := by
  refine ⟨?_, rfl⟩
  intro v
  cases v with
  | null =>
    show lowerStr (stripStr []) = []
    rfl
  | str s =>
    show lowerStr (stripStr (lowerStr (stripStr s))) = lowerStr (stripStr s)
    rw [stripStr_lowerStr, lowerStr_idem, stripStr_idem]
  | other r =>
    show lowerStr (stripStr (lowerStr (stripStr r))) = lowerStr (stripStr r)
    rw [stripStr_lowerStr, lowerStr_idem, stripStr_idem]

/-- C8: reflexivity exclusion: a batch of one record, with any non-empty
field set and any valid threshold, yields `[false]` — a record is never
compared against itself. -/
theorem C8_singleton_never_flagged (r : Record) (sk : List String) (t : ℚ)
    (hsk : sk ≠ []) (h0 : 0 ≤ t) (h1 : t ≤ 1) :
    detect_duplicates [r] sk t = [false] := by
  rw [detect_duplicates, if_neg (by simp)]
  have hck : compositeKeys [r] sk = [buildKey sk r] := rfl
  rw [hck]
  have hr1 : List.range ([buildKey sk r] : List (List Char)).length = [0] := rfl
  rw [hr1, List.map_cons, List.map_nil]
  have he : exactFlag [buildKey sk r] 0 = false := by
    rw [exactFlag]
    apply decide_eq_false
    intro hcon
    have hc1 : List.count (buildKey sk r) [buildKey sk r] = 1 := by simp
    rw [show List.getD [buildKey sk r] 0 [] = buildKey sk r from rfl, hc1] at hcon
    omega
  have hf : fuzzyFlag [buildKey sk r] t 0 = false := by
    rw [fuzzyFlag, hr1]
    simp
  rw [he, hf]
  rfl

/-- Witness for C8 at a concrete input. -/
theorem C8_witness :
    detect_duplicates [[(("advertiser" : String), Value.str ['a'])]]
      [("advertiser" : String)] (mkRat 1 2) = [false] :=
  C8_singleton_never_flagged _ _ (mkRat 1 2) (by decide) (by decide) (by decide)

/-- C9: empty batch: for every field set and every valid threshold the
classifier returns the empty sequence and reports no error. -/
theorem C9_empty_batch (sk : List String) (t : ℚ) (h0 : 0 ≤ t) (h1 : t ≤ 1) :
    detect_duplicates [] sk t = [] := rfl

/-- Witness for C9 at a concrete input. -/
theorem C9_witness :
    detect_duplicates [] [("advertiser" : String)] (mkRat 1 2) = [] :=
  C9_empty_batch _ _ (by decide) (by decide)

/-- C10: noninterference with non-key fields: two batches that agree, row
by row, on every field named in the field set (and may differ on every
other field, such as spend) receive identical verdicts. -/
theorem C10_noninterference (df1 df2 : List Record) (sk : List String) (t : ℚ)
    (h : List.Forall₂ (fun r1 r2 => ∀ k ∈ sk, getField r1 k = getField r2 k) df1 df2) :
    detect_duplicates df1 sk t = detect_duplicates df2 sk t := by
  have hkeys : compositeKeys df1 sk = compositeKeys df2 sk := by
    induction h with
    | nil => rfl
    | cons hr htl ih =>
      simp only [compositeKeys, List.map_cons] at ih ⊢
      rw [ih]
      congr 1
      rw [buildKey, buildKey]
      congr 1
      exact List.map_congr_left (fun k hk => by rw [hr k hk])
  cases h with
  | nil => rfl
  | cons hr htl =>
    rw [detect_duplicates, detect_duplicates, if_neg (by simp), if_neg (by simp),
      hkeys]

/-- Witness for C10 at a concrete input: two one-row batches differing
only in the `spend` column get the same verdict. -/
theorem C10_witness :
    detect_duplicates [[(("advertiser" : String), Value.str ['a']),
        (("spend" : String), Value.other ['1'])]]
      [("advertiser" : String)] (mkRat 9 10) =
      detect_duplicates [[(("advertiser" : String), Value.str ['a']),
        (("spend" : String), Value.other ['2'])]]
        [("advertiser" : String)] (mkRat 9 10) :=
  C10_noninterference _ _ _ _ (List.Forall₂.cons (by decide) List.Forall₂.nil)

end AdTracker
